import Mathlib

/-!
Verification of the funds repository market-data synchronization core.

The sync and cache engine of this repository is specified in the design
document src/DESIGN.md as Python sketches (sync_fund_history,
RateLimiter.acquire, batch_sync_funds, fetch_with_retry, SyncScheduler.start,
the prices and cache_meta tables).  The definitions below embed those sketches
shallowly: dates are days-since-epoch naturals, wall-clock time is seconds,
prices are rationals, the SQLite tables are association lists, and the
provider (AkShare) is a function parameter.  Parts that the design document
leaves out (the force flag, the SyncOutcome record, the SyncMeta update rules)
are modelled from the specification and marked as such in their doc comments.
The frontend trade-ledger flows are embedded as call traces from
src/frontend/src/stores/funds.js and src/unnamed/part_003.
-/

namespace Funds

abbrev FundCode := String

/-- Dates are modelled as days since an epoch. -/
abbrev Date := Nat

/-- One dated valuation record returned by the provider
(row of the DESIGN.md getHistory sketch). -/
structure PricePoint where
  date : Date
  netValue : ℚ
deriving Repr, DecidableEq

/-- One row of the prices table of DESIGN.md section 3.1:
prices(fund_code, net_value, date, ...) with UNIQUE(fund_code, date). -/
structure PriceRow where
  fundCode : FundCode
  date : Date
  netValue : ℚ
deriving Repr, DecidableEq

/-- Sync status column of the cache_meta table of DESIGN.md section 8.6.1:
synced / pending / failed. -/
inductive SyncStatus
  | synced
  | pending
  | failed
deriving Repr, DecidableEq

/-- Failure classification of provider calls (specification section 4.2). -/
inductive FetchError
  | timeout
  | rateLimited
  | notFound
  | malformed
  | unknown
deriving Repr, DecidableEq

/-- One row of the cache_meta table of DESIGN.md section 8.6.1
(last_sync_date, sync_status, error_message). -/
structure SyncMeta where
  lastSyncDate : Option Date
  status : SyncStatus
  errorMessage : Option FetchError
deriving Repr, DecidableEq

/-- The durable store: the prices table plus the cache_meta table. -/
structure CoreState where
  prices : List PriceRow
  meta : List (FundCode × SyncMeta)
deriving Repr, DecidableEq

/-- A tracked instrument: fixed code plus inception date
(funds table of DESIGN.md section 3.1; inception from specification 4.4). -/
structure Instrument where
  code : FundCode
  inceptionDate : Date
deriving Repr, DecidableEq

/-- The external provider: getHistory(code, fromDate, toDate), either a list
of points or a classified failure. -/
abbrev Provider := FundCode → Date → Date → Except FetchError (List PricePoint)

/-- Tests whether a row with the given unique key (fund_code, date) is
already cached. -/
def priceKeyPresent (rows : List PriceRow) (code : FundCode) (d : Date) : Bool :=
  rows.any fun r => r.fundCode == code && r.date == d

/-- Single-row insert honoring UNIQUE(fund_code, date) of the prices table:
an insert whose key is already present is ignored, never a duplicate row. -/
def insertPrice (rows : List PriceRow) (code : FundCode) (p : PricePoint) : List PriceRow :=
  if priceKeyPresent rows code p.date then rows
  else rows ++ [⟨code, p.date, p.netValue⟩]

/-- Batch insert of fetched points, db.batch_insert_prices of the
sync_fund_history sketch in DESIGN.md section 8.3.1. -/
def batch_insert_prices (rows : List PriceRow) (code : FundCode)
    (pts : List PricePoint) : List PriceRow :=
  pts.foldl (fun acc p => insertPrice acc code p) rows

/-- Latest cached valuation date of a fund, db.get_latest_price_date of the
sync_fund_history sketch; absent when no row for the fund is cached. -/
def get_latest_price_date (rows : List PriceRow) (code : FundCode) : Option Date :=
  ((rows.filter fun r => r.fundCode == code).map (·.date)).max?

/-- Reads the cache_meta row of a fund. -/
def getMeta (ms : List (FundCode × SyncMeta)) (code : FundCode) : Option SyncMeta :=
  (ms.find? fun kv => kv.1 == code).map (·.2)

/-- Writes the cache_meta row of a fund (update in place, insert if absent,
per the UNIQUE fund_code key of cache_meta). -/
def setMeta (ms : List (FundCode × SyncMeta)) (code : FundCode) (m : SyncMeta) :
    List (FundCode × SyncMeta) :=
  if ms.any fun kv => kv.1 == code then
    ms.map fun kv => if kv.1 == code then (code, m) else kv
  else ms ++ [(code, m)]

/-- Outcome record of one sync call.  Modelled from the spec: the
SyncOutcome{updated, fromDate, toDate, err} contract of specification
section 4.4; the DESIGN.md sketch returns nothing. -/
structure SyncOutcome where
  updated : Bool
  fromDate : Date
  toDate : Date
  err : Option FetchError
deriving Repr, DecidableEq

/-- Result of one sync call: the new store, the outcome, and the list of
provider calls issued (recorded so that zero-call properties are statable). -/
structure SyncResult where
  state : CoreState
  outcome : SyncOutcome
  fetchCalls : List (FundCode × Date × Date)
deriving Repr, DecidableEq

/-- Modelled from the spec: SyncMeta update on a successful fetch,
specification section 4.4 step 4: status=synced, last-synced date = max date
returned, or toDate if the provider confirms no new data, clear error. -/
def metaOnSuccess (pts : List PricePoint) (toDate : Date) : SyncMeta :=
  { lastSyncDate := some (((pts.map (·.date)).max?).getD toDate)
    status := .synced
    errorMessage := none }

/-- Modelled from the spec: SyncMeta update on a failed fetch, specification
section 4.4 step 5: status=failed, store the error, last-synced date kept. -/
def metaOnFailure (old : Option SyncMeta) (e : FetchError) : SyncMeta :=
  { lastSyncDate := old.bind (·.lastSyncDate)
    status := .failed
    errorMessage := some e }

/-- Fetch range start of the sync_fund_history sketch in DESIGN.md 8.3.1:
start_date = last_date + 1 day if last_date else the inception date. -/
def computeFromDate (rows : List PriceRow) (inst : Instrument) : Date :=
  match get_latest_price_date rows inst.code with
  | none => inst.inceptionDate
  | some d => d + 1

/-- Incremental sync of one fund, sync_fund_history of DESIGN.md 8.3.1:
compute [start_date, end_date], fetch only when start_date is not past
end_date, batch insert the returned rows.  Modelled from the spec: the force
flag (fetch even past the range check), the SyncOutcome, and the SyncMeta
update after every fetch attempt, per specification section 4.4. -/
def sync_fund_history (provider : Provider) (today : Date) (inst : Instrument)
    (force : Bool) (s : CoreState) : SyncResult :=
  let fromDate := computeFromDate s.prices inst
  let toDate := today
  if fromDate > toDate ∧ force = false then
    { state := s
      outcome := ⟨false, fromDate, toDate, none⟩
      fetchCalls := [] }
  else
    match provider inst.code fromDate toDate with
    | .ok pts =>
      { state :=
          { prices := batch_insert_prices s.prices inst.code pts
            meta := setMeta s.meta inst.code (metaOnSuccess pts toDate) }
        outcome := ⟨!pts.isEmpty, fromDate, toDate, none⟩
        fetchCalls := [(inst.code, fromDate, toDate)] }
    | .error e =>
      { state :=
          { prices := s.prices
            meta := setMeta s.meta inst.code (metaOnFailure (getMeta s.meta inst.code) e) }
        outcome := ⟨false, fromDate, toDate, some e⟩
        fetchCalls := [(inst.code, fromDate, toDate)] }

/-- Batch sync over a list of funds, batch_sync_funds of DESIGN.md 8.4.2:
serial iteration threading the store, a per-fund failure is caught, recorded
in the results list and does not abort the loop.  Returns the final store
and one result entry (code, error if any) per fund, in order. -/
def batch_sync_funds (provider : Provider) (today : Date) :
    List Instrument → CoreState → CoreState × List (FundCode × Option FetchError)
  | [], s => (s, [])
  | inst :: rest, s =>
      let r := sync_fund_history provider today inst false s
      let tail := batch_sync_funds provider today rest r.state
      (tail.1, (inst.code, r.outcome.err) :: tail.2)

/-- Expected cache_meta row of one fund after its own sync step, expressed
against a fixed store state: untouched when the range is empty, else the
success or failure update determined by the provider response for the
computed range. -/
def expectedMeta (provider : Provider) (today : Date) (inst : Instrument)
    (s : CoreState) : Option SyncMeta :=
  if computeFromDate s.prices inst > today then getMeta s.meta inst.code
  else
    match provider inst.code (computeFromDate s.prices inst) today with
    | .ok pts => some (metaOnSuccess pts today)
    | .error e => some (metaOnFailure (getMeta s.meta inst.code) e)

/-- One operation on the durable store: either an incremental sync (the only
writer of cache_meta) or a raw append of fetched points (appendPoints of the
CacheStore contract). -/
inductive CoreCall
  | syncCall (provider : Provider) (today : Date) (inst : Instrument) (force : Bool)
  | appendCall (code : FundCode) (pts : List PricePoint)

/-- Applies one store operation. -/
def applyCall (c : CoreCall) (s : CoreState) : CoreState :=
  match c with
  | .syncCall provider today inst force =>
      (sync_fund_history provider today inst force s).state
  | .appendCall code pts =>
      { prices := batch_insert_prices s.prices code pts, meta := s.meta }

/-- Applies a sequence of store operations in order. -/
def applyCalls (cs : List CoreCall) (s : CoreState) : CoreState :=
  cs.foldl (fun st c => applyCall c st) s

/-- Key-uniqueness invariant of the prices table: at most one row per
(fund_code, date), the UNIQUE(fund_code, date) constraint of DESIGN.md 3.1. -/
def KeysOk (rows : List PriceRow) : Prop :=
  (rows.map fun r => (r.fundCode, r.date)).Nodup

instance (rows : List PriceRow) : Decidable (KeysOk rows) := by
  unfold KeysOk; infer_instance

/-- Read of a date-range slice of the cached series of one fund
(readRange of the CacheStore contract; db.get_prices of DESIGN.md 8.7). -/
def readRange (rows : List PriceRow) (code : FundCode) (fromDate toDate : Date) :
    List PriceRow :=
  rows.filter fun r => r.fundCode == code && fromDate ≤ r.date && r.date ≤ toDate

/-- Recorded last-synced date of a fund. -/
def lastSyncOf (s : CoreState) (code : FundCode) : Option Date :=
  (getMeta s.meta code).bind (·.lastSyncDate)

/-- Forward-publication condition for one sync step, relative to the store
state it runs in: the sync runs at a current date no earlier than the
recorded last-synced date, and a successful nonempty response has its
maximal point date no earlier than the recorded last-synced date. -/
def ForwardStep (code : FundCode) (s : CoreState) : CoreCall → Prop
  | .syncCall provider today inst _ =>
      inst.code = code →
        (lastSyncOf s code).getD 0 ≤ today ∧
        (match provider inst.code (computeFromDate s.prices inst) today with
         | .ok pts =>
             pts = [] ∨
               (lastSyncOf s code).getD 0 ≤ ((pts.map (·.date)).max?).getD today
         | .error _ => True)
  | .appendCall _ _ => True

end Funds

namespace Funds

/-! RateLimiter of DESIGN.md section 8.4.1.  The Python class keeps
last_request_time (initially 0) under a lock; acquire computes
wait_time = min_interval - (now - last_request_time), sleeps when positive and
records the new grant time.  With idealized exact sleeps, a call that enters
the lock at time t when the previous grant happened at time last is granted at
max t (last + min_interval).  Callers are serialized FIFO through the lock,
and a caller can enter the lock no earlier than its arrival and no earlier
than the previous grant (the previous holder releases the lock at its grant
time).  Times are naturals (idealized seconds). -/

/-- Grant time of one acquire call that enters the lock at time entry when
the previous grant was at time last. -/
def acquireGrant (minInterval last entry : Nat) : Nat :=
  max entry (last + minInterval)

/-- Grant times of a FIFO queue of acquire calls with the given arrival
times, starting from a previous grant time last (0 for a fresh limiter, as in
the Python initializer). -/
def acquireTimes (minInterval : Nat) : Nat → List Nat → List Nat
  | _, [] => []
  | last, a :: as =>
      let g := acquireGrant minInterval last (max a last)
      g :: acquireTimes minInterval g as

/-- Wall-clock blocking duration of each caller: grant time minus arrival
time. -/
def blockTimes (minInterval last : Nat) (arrivals : List Nat) : List Nat :=
  (List.zip (acquireTimes minInterval last arrivals) arrivals).map
    fun p => p.1 - p.2

end Funds

namespace Funds

/-! Retry wrapper fetch_with_retry of DESIGN.md section 8.4.3.  The Python
loop runs attempt = 0 .. max_retries - 1; every attempt first consumes one
limiter slot, a success returns, any exception on the last attempt is
re-raised, and any exception on an earlier attempt sleeps
backoff ** attempt seconds and retries.  No exception classification is
performed.  The provider response of attempt k is the function argument resp
applied to k. -/

/-- Trace of one fetch_with_retry run: final result, number of attempts,
backoff sleeps performed and limiter slots consumed. -/
structure RetryResult (α : Type) where
  result : Except FetchError α
  attempts : Nat
  waits : List Nat
  limiterSlots : Nat
deriving Repr

/-- Loop body of fetch_with_retry: current attempt index plus the number of
attempts still allowed.  An exhausted budget (max_retries = 0, an empty
Python range) performs nothing and yields an unknown error. -/
def retryGo (resp : Nat → Except FetchError α) (backoff : Nat) :
    Nat → Nat → RetryResult α
  | _, 0 => ⟨.error .unknown, 0, [], 0⟩
  | attempt, remaining + 1 =>
      match resp attempt with
      | .ok v => ⟨.ok v, 1, [], 1⟩
      | .error e =>
          if remaining = 0 then ⟨.error e, 1, [], 1⟩
          else
            let rest := retryGo resp backoff (attempt + 1) remaining
            ⟨rest.result, rest.attempts + 1, backoff ^ attempt :: rest.waits,
              rest.limiterSlots + 1⟩

/-- Retry wrapper fetch_with_retry(fetch_func, max_retries=3, backoff=2) of
DESIGN.md 8.4.3. -/
def fetch_with_retry (resp : Nat → Except FetchError α)
    (maxRetries : Nat := 3) (backoff : Nat := 2) : RetryResult α :=
  retryGo resp backoff 0 maxRetries

end Funds

namespace Funds

/-! SyncScheduler of DESIGN.md section 8.5.2.  The Python loop wakes every
30 seconds; when the current wall-clock HH:MM matches an entry of SYNC_TIMES
not yet in SYNCED_TODAY it syncs all funds and marks the entry consumed, and
when the clock reads 00:00 it clears SYNCED_TODAY.  Wall-clock times are
modelled as minutes of the day, absolute time as seconds since an epoch
midnight. -/

/-- Daily checkpoints of DESIGN.md 8.5.2, minutes of the day:
890 = 14:50 and 930 = 15:30. -/
def SYNC_TIMES : List Nat := [890, 930]

/-- Minute of the day of an absolute second count. -/
def minuteOfDay (t : Nat) : Nat := (t % 86400) / 60

/-- Calendar day of an absolute second count. -/
def dayOf (t : Nat) : Nat := t / 86400

/-- One scheduler poll at absolute time t with the current consumed set:
yields the checkpoints fired at this poll and the updated consumed set
(cleared when the clock reads 00:00, checked after the checkpoint loop as in
the Python body). -/
def schedStep (consumed : List Nat) (t : Nat) : List Nat × List Nat :=
  let cur := minuteOfDay t
  let fired := SYNC_TIMES.filter fun c => c == cur && !(consumed.contains c)
  let consumed1 := consumed ++ fired
  (fired, if cur == 0 then [] else consumed1)

/-- One recorded scheduler poll: its absolute time and the checkpoints whose
batch sync fired at it. -/
structure SchedTick where
  time : Nat
  fired : List Nat
deriving Repr, DecidableEq

/-- Runs n scheduler polls 30 seconds apart starting at absolute time t. -/
def schedRun (consumed : List Nat) (t : Nat) : Nat → List SchedTick
  | 0 => []
  | n + 1 =>
      let step := schedStep consumed t
      ⟨t, step.1⟩ :: schedRun step.2 (t + 30) n

/-- Number of polls of a run at which checkpoint c fired during calendar
day d. -/
def countFires (run : List SchedTick) (d c : Nat) : Nat :=
  (run.filter fun tk => dayOf tk.time == d && tk.fired.contains c).length

end Funds

namespace Funds

/-! IndicatorEngine.  Modelled from the spec: the repository computes MA5,
MA10 and MA20 server side (utils/indicators.py of the DESIGN.md layout, not
part of the visible sources); specification section 4.6 defines MA(n) as the
arithmetic mean of the last n unit values ending at each index, absent for
indices with fewer than n points. -/

/-- Last n elements of a list. -/
def lastN (n : Nat) (l : List ℚ) : List ℚ := l.drop (l.length - n)

/-- Modelled from the spec: MA(n) over an ordered unit-value series, one
entry per input index, absent while fewer than n values are available. -/
def MA (n : Nat) (s : List ℚ) : List (Option ℚ) :=
  (List.range s.length).map fun i =>
    let pre := s.take (i + 1)
    if n ≤ pre.length then some ((lastN n pre).sum / (n : ℚ)) else none

/-- Unit-value series of the indicator-correctness example of specification
section 8. -/
def exampleSeries : List ℚ :=
  [1, 102/100, 101/100, 105/100, 103/100, 104/100, 106/100]

end Funds

namespace Funds

/-! Frontend trade-ledger flows.  The Pinia store
src/frontend/src/stores/funds.js (addTrade, updateTrade, deleteTrade) and the
static page script src/unnamed/part_003 (saveEditTrade, deleteTrade) are
straight-line await sequences on their success paths; each is embedded as the
ordered trace of API and view-refresh calls it performs.  The conditional
re-selection of the current fund in the store is a boolean parameter. -/

/-- One frontend call: a trade-ledger mutation, the holdings recalculation
endpoint, a view-state refresh, or a pure UI action. -/
inductive UICall
  | apiAddTrade
  | apiUpdateTrade
  | apiDeleteTrade
  | apiRecalculate
  | viewHoldingsSummary
  | viewSelectFund
  | viewTradeHistory
  | viewFundDetail
  | viewTradePreview
  | uiCloseModal
deriving Repr, DecidableEq

/-- Trade-ledger mutations. -/
def isTradeMutation : UICall → Bool
  | .apiAddTrade | .apiUpdateTrade | .apiDeleteTrade => true
  | _ => false

/-- Calls that refresh displayed view state. -/
def isViewRefresh : UICall → Bool
  | .viewHoldingsSummary | .viewSelectFund | .viewTradeHistory
  | .viewFundDetail | .viewTradePreview => true
  | _ => false

/-- Checks that, in the calls after a mutation, a recalculation occurs and
does so before any view refresh. -/
def afterMutationOk : List UICall → Bool
  | [] => false
  | c :: cs =>
      if c = .apiRecalculate then true
      else if isViewRefresh c then false
      else afterMutationOk cs

/-- Checks that every trade-ledger mutation of a trace is followed by a
recalculation that precedes every later view refresh. -/
def traceOk : List UICall → Bool
  | [] => true
  | c :: cs => (!isTradeMutation c || afterMutationOk cs) && traceOk cs

/-- Success path of addTrade of src/frontend/src/stores/funds.js lines
177-189; isCurrent tells whether the mutated fund is the currently selected
one. -/
def store_addTrade (isCurrent : Bool) : List UICall :=
  [.apiAddTrade, .apiRecalculate, .viewHoldingsSummary]
    ++ if isCurrent then [.viewSelectFund] else []

/-- Success path of updateTrade of src/frontend/src/stores/funds.js lines
192-203. -/
def store_updateTrade (isCurrent : Bool) : List UICall :=
  [.apiUpdateTrade, .apiRecalculate]
    ++ if isCurrent then [.viewSelectFund] else []

/-- Success path of deleteTrade of src/frontend/src/stores/funds.js lines
206-218. -/
def store_deleteTrade (isCurrent : Bool) : List UICall :=
  [.apiDeleteTrade, .apiRecalculate, .viewHoldingsSummary]
    ++ if isCurrent then [.viewSelectFund] else []

/-- Success path of saveEditTrade of src/unnamed/part_003 lines 1041-1078. -/
def page_saveEditTrade : List UICall :=
  [.apiUpdateTrade, .apiRecalculate, .uiCloseModal, .viewTradeHistory,
    .viewFundDetail, .viewHoldingsSummary, .viewTradePreview]

/-- Success path of deleteTrade of src/unnamed/part_003 lines 1081-1096. -/
def page_deleteTrade : List UICall :=
  [.apiDeleteTrade, .apiRecalculate, .viewTradeHistory, .viewFundDetail,
    .viewHoldingsSummary, .viewTradePreview]

end Funds

namespace Funds

/-- Length of the moving-average series equals the length of the input. -/
theorem MA_length (n : Nat) (s : List ℚ) : (MA n s).length = s.length := by
  simp [MA]

/-- Entry i of the moving-average series, by cases on availability. -/
theorem MA_get? (n : Nat) (s : List ℚ) (i : Nat) (h : i < s.length) :
    (MA n s).get? i =
      some (if n ≤ i + 1 then
        some (((s.take (i + 1)).drop (i + 1 - n)).sum / (n : ℚ)) else none) := by
  have hlen : (s.take (i + 1)).length = i + 1 := by
    simp [List.length_take]
    omega
  simp only [MA, List.get?_map, List.get?_range h, Option.map_some', lastN, hlen]

/-- C9: MA(n) at an index with at least n points available is the arithmetic
mean of the window of exactly the last n unit values ending at that index,
and is absent at indices with fewer than n points; on the example series
1.00, 1.02, 1.01, 1.05, 1.03, 1.04, 1.06 the value of MA(3) at the last
index equals 313/300 (the mean of 1.03, 1.04 and 1.06, about 1.0433) and
MA(3) is absent at the first two indices. -/
theorem claim_C9_moving_average :
    ((MA 3 exampleSeries).get? 6 = some (some (313/300)) ∧
      exampleSeries.length = 7) ∧
    (MA 3 exampleSeries).get? 0 = some none ∧
    (MA 3 exampleSeries).get? 1 = some none ∧
    (∀ (n : ℕ) (s : List ℚ) (i : ℕ), i < s.length → n ≤ i + 1 →
        (MA n s).get? i =
          some (some (((s.take (i + 1)).drop (i + 1 - n)).sum / (n : ℚ))) ∧
        ((s.take (i + 1)).drop (i + 1 - n)).length = n) ∧
    (∀ (n : ℕ) (s : List ℚ) (i : ℕ), i < s.length → i + 1 < n →
        (MA n s).get? i = some none) ∧
    (∀ (n : ℕ) (s : List ℚ), (MA n s).length = s.length) := by
  have hgen : ∀ (n : ℕ) (s : List ℚ) (i : ℕ), i < s.length → n ≤ i + 1 →
      (MA n s).get? i =
        some (some (((s.take (i + 1)).drop (i + 1 - n)).sum / (n : ℚ))) ∧
      ((s.take (i + 1)).drop (i + 1 - n)).length = n := by
    intro n s i hi hn
    constructor
    · rw [MA_get? n s i hi, if_pos hn]
    · simp [List.length_drop, List.length_take]
      omega
  refine ⟨⟨?_, by decide⟩, ?_, ?_, hgen, ?_, fun n s => MA_length n s⟩
  · rw [(hgen 3 exampleSeries 6 (by decide) (by omega)).1]
    norm_num [exampleSeries]
  · rw [MA_get? 3 exampleSeries 0 (by decide), if_neg (by omega)]
  · rw [MA_get? 3 exampleSeries 1 (by decide), if_neg (by omega)]
  · intro n s i hi hn
    rw [MA_get? n s i hi, if_neg (by omega)]

/-- C9 witness: the general window characterization evaluated at the example
series at index 4 with window size 3. -/
theorem claim_C9_witness :
    (4 < exampleSeries.length ∧ 3 ≤ 4 + 1) ∧
    (MA 3 exampleSeries).get? 4 =
      some (some (((exampleSeries.take 5).drop 2).sum / (3 : ℚ))) ∧
    ((exampleSeries.take 5).drop 2).length = 3 :=
  ⟨⟨by decide, by decide⟩,
    (claim_C9_moving_average.2.2.2.1 3 exampleSeries 4 (by decide) (by decide)).1,
    (claim_C9_moving_average.2.2.2.1 3 exampleSeries 4 (by decide) (by decide)).2⟩

end Funds

namespace Funds

/-- Unfolding equation of the grant-time recursion. -/
theorem acquireTimes_cons (m last a : Nat) (as : List Nat) :
    acquireTimes m last (a :: as) =
      acquireGrant m last (max a last)
        :: acquireTimes m (acquireGrant m last (max a last)) as := rfl

/-- One acquire is granted no earlier than minInterval past the previous
grant. -/
theorem acquireGrant_ge (m last entry : Nat) : last + m ≤ acquireGrant m last entry :=
  Nat.le_max_right _ _

/-- Every queued acquire call receives a grant time. -/
theorem acquireTimes_length (m : Nat) (as : List Nat) :
    ∀ last, (acquireTimes m last as).length = as.length := by
  induction as with
  | nil => intro last; rfl
  | cons a as ih => intro last; rw [acquireTimes_cons]; simp [ih]

/-- Consecutive grant times are spaced by at least minInterval. -/
theorem acquireTimes_chain (m : Nat) (as : List Nat) :
    ∀ last, List.Chain' (fun x y => x + m ≤ y) (acquireTimes m last as) := by
  induction as with
  | nil => intro last; exact List.chain'_nil
  | cons a as ih =>
    intro last
    rw [acquireTimes_cons, List.chain'_cons']
    refine ⟨?_, ih _⟩
    intro y hy
    cases as with
    | nil => simp [acquireTimes] at hy
    | cons b bs =>
      rw [acquireTimes_cons] at hy
      simp only [List.head?_cons, Option.mem_def, Option.some.injEq] at hy
      subst hy
      exact acquireGrant_ge _ _ _

/-- A chain of minInterval-spaced times spans at least
(length - 1) * minInterval from first to last. -/
theorem chain_total_elapsed (m : Nat) :
    ∀ (gs : List Nat), List.Chain' (fun x y => x + m ≤ y) gs →
      ∀ g1 gN, gs.head? = some g1 → gs.getLast? = some gN →
        g1 + (gs.length - 1) * m ≤ gN := by
  intro gs
  induction gs with
  | nil => intro _ g1 gN h _; simp at h
  | cons g rest ih =>
    intro hch g1 gN h1 hN
    simp only [List.head?_cons, Option.some.injEq] at h1
    subst h1
    cases rest with
    | nil =>
      simp only [List.getLast?_singleton, Option.some.injEq] at hN
      subst hN; simp
    | cons g2 rest2 =>
      rw [List.chain'_cons] at hch
      have hN' : (g2 :: rest2).getLast? = some gN := by
        rw [List.getLast?_cons_cons] at hN; exact hN
      have htail := ih hch.2 g2 gN rfl hN'
      have hstep : g + m ≤ g2 := hch.1
      simp only [List.length_cons, Nat.add_sub_cancel] at htail ⊢
      rw [Nat.succ_mul]
      generalize rest2.length * m = K at htail ⊢
      omega

/-- C3 counterexample: with minInterval 1 and three callers all arriving at
time 100 at a fresh limiter, the grant times are 100, 101 and 102, so the
third caller blocks for 2 > 1 = minInterval wall seconds; the claim that
acquire never blocks a caller longer than minInterval, even with concurrent
callers, is false for the lock-serialized limiter of DESIGN.md 8.4.1. -/
theorem claim_C3_blocking_cex :
    acquireTimes 1 0 [100, 100, 100] = [100, 101, 102] ∧
    blockTimes 1 0 [100, 100, 100] = [0, 1, 2] ∧
    ¬ ∀ b ∈ blockTimes 1 0 [100, 100, 100], b ≤ 1 := by decide

/-- C3 amended: across N consecutive grants the start times of consecutive
grants are at least minInterval apart, hence total elapsed wall time from the
first to the last grant is at least (N - 1) * minInterval; each caller is
granted at most minInterval after it enters the limiter lock (the later of
its arrival and the previous grant), but its total wall blocking can exceed
minInterval when earlier queued callers hold the lock. -/
theorem claim_C3_rate_spacing (m last0 : Nat) (as : List Nat) :
    List.Chain' (fun x y => x + m ≤ y) (acquireTimes m last0 as) ∧
    (acquireTimes m last0 as).length = as.length ∧
    (∀ g1 gN, (acquireTimes m last0 as).head? = some g1 →
        (acquireTimes m last0 as).getLast? = some gN →
        g1 + (as.length - 1) * m ≤ gN) ∧
    (∀ last entry, last ≤ entry → acquireGrant m last entry ≤ entry + m) := by
  refine ⟨acquireTimes_chain m as last0, acquireTimes_length m as last0, ?_, ?_⟩
  · intro g1 gN h1 hN
    have := chain_total_elapsed m (acquireTimes m last0 as)
      (acquireTimes_chain m as last0) g1 gN h1 hN
    rwa [acquireTimes_length m as last0] at this
  · intro last entry hle
    exact Nat.max_le.mpr ⟨Nat.le_add_right _ _, Nat.add_le_add_right hle m⟩

/-- C3 witness: the amended spacing bound and the post-lock blocking bound
evaluated on the three-caller scenario with minInterval 1. -/
theorem claim_C3_witness :
    100 + (3 - 1) * 1 ≤ 102 ∧ acquireGrant 1 100 100 ≤ 100 + 1 :=
  ⟨(claim_C3_rate_spacing 1 0 [100, 100, 100]).2.2.1 100 102 (by decide) (by decide),
    (claim_C3_rate_spacing 1 0 [100, 100, 100]).2.2.2 100 100 (by decide)⟩

end Funds

namespace Funds

/-- Unfolding equation of the retry loop on a successful attempt. -/
theorem retryGo_ok (resp : Nat → Except FetchError α) (backoff attempt rem : Nat)
    (v : α) (h : resp attempt = .ok v) :
    retryGo resp backoff attempt (rem + 1) = ⟨.ok v, 1, [], 1⟩ := by
  rw [retryGo, h]

/-- Unfolding equation of the retry loop on a failure of the final allowed
attempt: the error is surfaced. -/
theorem retryGo_error_last (resp : Nat → Except FetchError α) (backoff attempt : Nat)
    (e : FetchError) (h : resp attempt = .error e) :
    retryGo resp backoff attempt 1 = ⟨.error e, 1, [], 1⟩ := by
  rw [retryGo, h]
  simp

/-- Unfolding equation of the retry loop on a failure of a non-final
attempt: sleep backoff to the power of the attempt index and retry. -/
theorem retryGo_error_cons (resp : Nat → Except FetchError α) (backoff attempt rem : Nat)
    (e : FetchError) (h : resp attempt = .error e) (hrem : rem ≠ 0) :
    retryGo resp backoff attempt (rem + 1) =
      ⟨(retryGo resp backoff (attempt + 1) rem).result,
        (retryGo resp backoff (attempt + 1) rem).attempts + 1,
        backoff ^ attempt :: (retryGo resp backoff (attempt + 1) rem).waits,
        (retryGo resp backoff (attempt + 1) rem).limiterSlots + 1⟩ := by
  rw [retryGo, h]
  simp [hrem]

/-- At least one attempt is made whenever the budget is nonzero. -/
theorem retryGo_attempts_pos (resp : Nat → Except FetchError α) (backoff : Nat) :
    ∀ rem attempt, rem ≠ 0 → 1 ≤ (retryGo resp backoff attempt rem).attempts := by
  intro rem attempt hrem
  cases rem with
  | zero => exact absurd rfl hrem
  | succ r =>
    cases hresp : resp attempt with
    | ok v => rw [retryGo_ok resp backoff attempt r v hresp]
    | error e =>
      cases r with
      | zero => rw [retryGo_error_last resp backoff attempt e hresp]
      | succ r2 =>
        rw [retryGo_error_cons resp backoff attempt (r2 + 1) e hresp (by omega)]
        exact Nat.le_add_left 1 _

/-- Full trace characterization of the retry loop body: as many limiter
slots as attempts, at most the remaining budget of attempts, the backoff
sleeps are exactly backoff to the power of each non-final failed attempt
index, and a response that always fails exhausts the whole budget. -/
theorem retryGo_spec (resp : Nat → Except FetchError α) (backoff : Nat) :
    ∀ remaining attempt,
      (retryGo resp backoff attempt remaining).limiterSlots =
        (retryGo resp backoff attempt remaining).attempts ∧
      (retryGo resp backoff attempt remaining).attempts ≤ remaining ∧
      (retryGo resp backoff attempt remaining).waits =
        (List.range ((retryGo resp backoff attempt remaining).attempts - 1)).map
          (fun i => backoff ^ (attempt + i)) ∧
      ((∀ k, ∃ e, resp k = .error e) → 0 < remaining →
        (retryGo resp backoff attempt remaining).attempts = remaining) := by
  intro remaining
  induction remaining with
  | zero => intro attempt; exact ⟨rfl, Nat.le_refl 0, rfl, fun _ h => absurd h (by omega)⟩
  | succ rem ih =>
    intro attempt
    cases hresp : resp attempt with
    | ok v =>
      rw [retryGo_ok resp backoff attempt rem v hresp]
      refine ⟨rfl, by show 1 ≤ rem + 1; omega, by simp, ?_⟩
      intro hfail _
      obtain ⟨e, he⟩ := hfail attempt
      rw [hresp] at he
      exact absurd he (by simp)
    | error e =>
      cases rem with
      | zero =>
        rw [retryGo_error_last resp backoff attempt e hresp]
        exact ⟨rfl, Nat.le_refl 1, by simp, fun _ _ => rfl⟩
      | succ rem2 =>
        rw [retryGo_error_cons resp backoff attempt (rem2 + 1) e hresp (by omega)]
        obtain ⟨hslots, hbound, hwaits, hfull⟩ := ih (attempt + 1)
        have hpos : 1 ≤ (retryGo resp backoff (attempt + 1) (rem2 + 1)).attempts :=
          retryGo_attempts_pos resp backoff (rem2 + 1) (attempt + 1) (by omega)
        refine ⟨by simp [hslots],
          by show (retryGo resp backoff (attempt + 1) (rem2 + 1)).attempts + 1 ≤ rem2 + 1 + 1
             omega, ?_, ?_⟩
        · simp only [Nat.add_sub_cancel]
          rw [show (retryGo resp backoff (attempt + 1) (rem2 + 1)).attempts =
              ((retryGo resp backoff (attempt + 1) (rem2 + 1)).attempts - 1) + 1 from by omega,
            List.range_succ_eq_map, List.map_cons, List.map_map]
          have hfun : ((fun i => backoff ^ (attempt + i)) ∘ Nat.succ)
              = fun i => backoff ^ (attempt + 1 + i) := by
            funext i
            simp only [Function.comp]
            congr 1
            omega
          rw [hfun, ← hwaits]
          simp
        · intro hfail _
          show (retryGo resp backoff (attempt + 1) (rem2 + 1)).attempts + 1 = rem2 + 1 + 1
          rw [hfull hfail (by omega)]

/-- C4 counterexample: a fetch whose failure is classified NotFound is not
surfaced immediately by fetch_with_retry of DESIGN.md 8.4.3: with the default
budget of 3 attempts it is attempted 3 times (2 retries) with backoff sleeps
of 1 and 2 seconds, consuming 3 limiter slots, because the loop retries every
exception without classification; moreover no 30-second cap exists: with a
budget of 7 attempts a sleep of 32 > 30 seconds occurs. -/
theorem claim_C4_retry_cex :
    (fetch_with_retry (fun _ => (.error .notFound : Except FetchError (List PricePoint)))
        3 2).attempts = 3 ∧
    (fetch_with_retry (fun _ => (.error .notFound : Except FetchError (List PricePoint)))
        3 2).waits = [1, 2] ∧
    (fetch_with_retry (fun _ => (.error .notFound : Except FetchError (List PricePoint)))
        3 2).limiterSlots = 3 ∧
    ¬ ((fetch_with_retry (fun _ => (.error .notFound : Except FetchError (List PricePoint)))
        3 2).attempts = 1) ∧
    32 ∈ (fetch_with_retry (fun _ => (.error .notFound : Except FetchError (List PricePoint)))
        7 2).waits ∧
    ¬ (32 ≤ 30) := by
  refine ⟨rfl, rfl, rfl, by decide, ?_, by decide⟩
  show 32 ∈ [1, 2, 4, 8, 16, 32]
  decide

/-- C4 amended: fetch_with_retry retries every failure, regardless of its
classification (including NotFound and Malformed), until the attempt budget
maxRetries is exhausted: at most maxRetries attempts in total (default 3,
that is at most 2 retries), with a sleep of backoff to the power of the
attempt index after each non-final failed attempt (1 and 2 seconds at the
defaults, with no 30-second cap), before the last error is surfaced; every
attempt, including every retry, consumes exactly one RateLimiter slot, and a
first-attempt success makes exactly one attempt with no sleeps. -/
theorem claim_C4_retry_behavior (resp : Nat → Except FetchError α)
    (maxRetries backoff : Nat) :
    (fetch_with_retry resp maxRetries backoff).limiterSlots =
      (fetch_with_retry resp maxRetries backoff).attempts ∧
    (fetch_with_retry resp maxRetries backoff).attempts ≤ maxRetries ∧
    (fetch_with_retry resp maxRetries backoff).waits =
      (List.range ((fetch_with_retry resp maxRetries backoff).attempts - 1)).map
        (backoff ^ ·) ∧
    ((∀ k, ∃ e, resp k = .error e) → 0 < maxRetries →
      (fetch_with_retry resp maxRetries backoff).attempts = maxRetries) ∧
    (∀ v, resp 0 = .ok v → 0 < maxRetries →
      (fetch_with_retry resp maxRetries backoff).attempts = 1 ∧
      (fetch_with_retry resp maxRetries backoff).waits = []) := by
  obtain ⟨hslots, hbound, hwaits, hfull⟩ := retryGo_spec resp backoff maxRetries 0
  refine ⟨hslots, hbound, ?_, hfull, ?_⟩
  · show (retryGo resp backoff 0 maxRetries).waits =
      (List.range ((retryGo resp backoff 0 maxRetries).attempts - 1)).map (backoff ^ ·)
    rw [hwaits]
    have hfun : (fun i => backoff ^ (0 + i)) = fun i : Nat => backoff ^ i := by
      funext i
      rw [Nat.zero_add]
    rw [hfun]
  · intro v hv hpos
    cases maxRetries with
    | zero => exact absurd hpos (by omega)
    | succ r =>
      have h := retryGo_ok resp backoff 0 r v hv
      constructor
      · show (retryGo resp backoff 0 (r + 1)).attempts = 1
        rw [h]
      · show (retryGo resp backoff 0 (r + 1)).waits = []
        rw [h]

/-- Specialization of the max? characterization to lists of naturals. -/
theorem natList_max?_eq_some_iff {xs : List Nat} {a : Nat} :
    xs.max? = some a ↔ a ∈ xs ∧ ∀ b ∈ xs, b ≤ a :=
  List.max?_eq_some_iff (fun a => Nat.le_refl a) (fun a b => by omega)
    (fun a b c => by omega)

/-- Unfolding equation of sync_fund_history when the requested range is
empty and force is not set: immediate return, no fetch. -/
theorem sync_noop_eq (provider : Provider) (today : Date) (inst : Instrument)
    (s : CoreState) (h : computeFromDate s.prices inst > today) :
    sync_fund_history provider today inst false s =
      ⟨s, ⟨false, computeFromDate s.prices inst, today, none⟩, []⟩ := by
  have hc : computeFromDate s.prices inst > today ∧ (false : Bool) = false := ⟨h, rfl⟩
  unfold sync_fund_history
  rw [if_pos hc]

/-- Unfolding equation of sync_fund_history on a successful fetch. -/
theorem sync_fetch_ok (provider : Provider) (today : Date) (inst : Instrument)
    (force : Bool) (s : CoreState) (pts : List PricePoint)
    (hbr : ¬(computeFromDate s.prices inst > today ∧ force = false))
    (hp : provider inst.code (computeFromDate s.prices inst) today = .ok pts) :
    sync_fund_history provider today inst force s =
      ⟨⟨batch_insert_prices s.prices inst.code pts,
          setMeta s.meta inst.code (metaOnSuccess pts today)⟩,
        ⟨!pts.isEmpty, computeFromDate s.prices inst, today, none⟩,
        [(inst.code, computeFromDate s.prices inst, today)]⟩ := by
  unfold sync_fund_history
  simp only [if_neg hbr, hp]

/-- Unfolding equation of sync_fund_history on a failed fetch. -/
theorem sync_fetch_error (provider : Provider) (today : Date) (inst : Instrument)
    (force : Bool) (s : CoreState) (e : FetchError)
    (hbr : ¬(computeFromDate s.prices inst > today ∧ force = false))
    (hp : provider inst.code (computeFromDate s.prices inst) today = .error e) :
    sync_fund_history provider today inst force s =
      ⟨⟨s.prices,
          setMeta s.meta inst.code (metaOnFailure (getMeta s.meta inst.code) e)⟩,
        ⟨false, computeFromDate s.prices inst, today, some e⟩,
        [(inst.code, computeFromDate s.prices inst, today)]⟩ := by
  unfold sync_fund_history
  simp only [if_neg hbr, hp]

/-- The computed range start of every sync call. -/
theorem sync_outcome_fromDate (provider : Provider) (today : Date)
    (inst : Instrument) (force : Bool) (s : CoreState) :
    (sync_fund_history provider today inst force s).outcome.fromDate =
      computeFromDate s.prices inst := by
  unfold sync_fund_history
  by_cases h : computeFromDate s.prices inst > today ∧ force = false
  · simp only [if_pos h]
  · simp only [if_neg h]
    cases provider inst.code (computeFromDate s.prices inst) today <;> rfl

/-- The computed range end of every sync call is the current date. -/
theorem sync_outcome_toDate (provider : Provider) (today : Date)
    (inst : Instrument) (force : Bool) (s : CoreState) :
    (sync_fund_history provider today inst force s).outcome.toDate = today := by
  unfold sync_fund_history
  by_cases h : computeFromDate s.prices inst > today ∧ force = false
  · simp only [if_pos h]
  · simp only [if_neg h]
    cases provider inst.code (computeFromDate s.prices inst) today <;> rfl

/-- A cache with no rows for the fund yields the inception date as range
start. -/
theorem computeFromDate_of_no_rows (rows : List PriceRow) (inst : Instrument)
    (h : ∀ row ∈ rows, row.fundCode ≠ inst.code) :
    computeFromDate rows inst = inst.inceptionDate := by
  rw [computeFromDate]
  have hnone : get_latest_price_date rows inst.code = none := by
    rw [get_latest_price_date, List.max?_eq_none_iff, List.map_eq_nil,
      List.filter_eq_nil]
    intro row hrow
    simp only [beq_iff_eq]
    exact h row hrow
  rw [hnone]

/-- A cache whose maximal row date for the fund is D yields D + 1 as range
start. -/
theorem computeFromDate_of_max (rows : List PriceRow) (inst : Instrument) (D : Date)
    (hmem : ∃ row ∈ rows, row.fundCode = inst.code ∧ row.date = D)
    (hub : ∀ row ∈ rows, row.fundCode = inst.code → row.date ≤ D) :
    computeFromDate rows inst = D + 1 := by
  rw [computeFromDate]
  have hsome : get_latest_price_date rows inst.code = some D := by
    rw [get_latest_price_date, natList_max?_eq_some_iff]
    constructor
    · obtain ⟨row, hrow, hc, hd⟩ := hmem
      exact List.mem_map.mpr ⟨row, List.mem_filter.mpr ⟨hrow, by simp [hc]⟩, hd⟩
    · intro b hb
      obtain ⟨row, hrow, hd⟩ := List.mem_map.mp hb
      have hf := List.mem_filter.mp hrow
      exact hd ▸ hub row hf.1 (by simpa using hf.2)
  rw [hsome]

/-- C1: a sync without force on an instrument whose cached latest date equals
the current date computes fromDate = today + 1 > toDate, performs zero
provider calls, returns updated = false and leaves the store untouched; in
general, whenever the computed fromDate exceeds toDate = today and force is
not set, sync returns immediately without fetching. -/
theorem claim_C1_t1_noop (provider : Provider) (today : Date) (inst : Instrument)
    (s : CoreState) :
    (get_latest_price_date s.prices inst.code = some today →
      (sync_fund_history provider today inst false s).fetchCalls = [] ∧
      (sync_fund_history provider today inst false s).outcome.updated = false ∧
      (sync_fund_history provider today inst false s).state = s) ∧
    (computeFromDate s.prices inst > today →
      (sync_fund_history provider today inst false s).fetchCalls = [] ∧
      (sync_fund_history provider today inst false s).outcome.updated = false ∧
      (sync_fund_history provider today inst false s).state = s) := by
  have hgen : computeFromDate s.prices inst > today →
      (sync_fund_history provider today inst false s).fetchCalls = [] ∧
      (sync_fund_history provider today inst false s).outcome.updated = false ∧
      (sync_fund_history provider today inst false s).state = s := by
    intro h
    rw [sync_noop_eq provider today inst s h]
    exact ⟨rfl, rfl, rfl⟩
  refine ⟨fun hl => hgen ?_, hgen⟩
  unfold computeFromDate
  rw [hl]
  exact Nat.lt_succ_self today

/-- C1 witness: a fund cached through day 5, synced on day 5 without force:
no provider call, updated = false, store untouched. -/
theorem claim_C1_witness :
    get_latest_price_date [⟨"000001", 5, 1⟩] "000001" = some 5 ∧
    ((sync_fund_history (fun _ _ _ => .ok []) 5 ⟨"000001", 2⟩ false
        ⟨[⟨"000001", 5, 1⟩], []⟩).fetchCalls = [] ∧
      (sync_fund_history (fun _ _ _ => .ok []) 5 ⟨"000001", 2⟩ false
        ⟨[⟨"000001", 5, 1⟩], []⟩).outcome.updated = false ∧
      (sync_fund_history (fun _ _ _ => .ok []) 5 ⟨"000001", 2⟩ false
        ⟨[⟨"000001", 5, 1⟩], []⟩).state = ⟨[⟨"000001", 5, 1⟩], []⟩) :=
  ⟨by decide,
    (claim_C1_t1_noop (fun _ _ _ => .ok []) 5 ⟨"000001", 2⟩
      ⟨[⟨"000001", 5, 1⟩], []⟩).1 (by decide)⟩

/-- C2: every sync call computes toDate = the current date and fromDate =
the instrument inception date when the cache holds no row for it, or the
maximal cached date plus one day otherwise; every provider call it issues
requests exactly the range from fromDate to toDate. -/
theorem claim_C2_fetch_range (provider : Provider) (today : Date)
    (inst : Instrument) (force : Bool) (s : CoreState) :
    (sync_fund_history provider today inst force s).outcome.toDate = today ∧
    ((∀ row ∈ s.prices, row.fundCode ≠ inst.code) →
      (sync_fund_history provider today inst force s).outcome.fromDate =
        inst.inceptionDate) ∧
    (∀ D : Date, (∃ row ∈ s.prices, row.fundCode = inst.code ∧ row.date = D) →
      (∀ row ∈ s.prices, row.fundCode = inst.code → row.date ≤ D) →
      (sync_fund_history provider today inst force s).outcome.fromDate = D + 1) ∧
    (∀ c ∈ (sync_fund_history provider today inst force s).fetchCalls,
      c = (inst.code, (sync_fund_history provider today inst force s).outcome.fromDate,
        (sync_fund_history provider today inst force s).outcome.toDate)) := by
  refine ⟨sync_outcome_toDate provider today inst force s, ?_, ?_, ?_⟩
  · intro h
    rw [sync_outcome_fromDate, computeFromDate_of_no_rows s.prices inst h]
  · intro D hmem hub
    rw [sync_outcome_fromDate, computeFromDate_of_max s.prices inst D hmem hub]
  · intro c hc
    rw [sync_outcome_fromDate, sync_outcome_toDate]
    by_cases h : computeFromDate s.prices inst > today ∧ force = false
    · obtain ⟨h1, h2⟩ := h
      subst h2
      rw [sync_noop_eq provider today inst s h1] at hc
      simp at hc
    · cases hp : provider inst.code (computeFromDate s.prices inst) today with
      | ok pts =>
        rw [sync_fetch_ok provider today inst force s pts h hp] at hc
        simpa using hc
      | error e =>
        rw [sync_fetch_error provider today inst force s e h hp] at hc
        simpa using hc

/-- C2 witness: a cache holding rows for two funds, synced for the first one
on day 9: the range is day 5 (maximal cached date 4 plus one) to day 9, and
the single provider call requests exactly that range. -/
theorem claim_C2_witness :
    ((∃ row ∈ [(⟨"a", 4, 1⟩ : PriceRow), ⟨"b", 7, 1⟩],
        row.fundCode = "a" ∧ row.date = 4) ∧
      (∀ row ∈ [(⟨"a", 4, 1⟩ : PriceRow), ⟨"b", 7, 1⟩],
        row.fundCode = "a" → row.date ≤ 4)) ∧
    (sync_fund_history (fun _ _ _ => .ok []) 9 ⟨"a", 3⟩ false
      ⟨[⟨"a", 4, 1⟩, ⟨"b", 7, 1⟩], []⟩).outcome.toDate = 9 ∧
    (sync_fund_history (fun _ _ _ => .ok []) 9 ⟨"a", 3⟩ false
      ⟨[⟨"a", 4, 1⟩, ⟨"b", 7, 1⟩], []⟩).outcome.fromDate = 4 + 1 :=
  ⟨⟨by decide, by decide⟩,
    (claim_C2_fetch_range (fun _ _ _ => .ok []) 9 ⟨"a", 3⟩ false
      ⟨[⟨"a", 4, 1⟩, ⟨"b", 7, 1⟩], []⟩).1,
    (claim_C2_fetch_range (fun _ _ _ => .ok []) 9 ⟨"a", 3⟩ false
      ⟨[⟨"a", 4, 1⟩, ⟨"b", 7, 1⟩], []⟩).2.2.1 4 (by decide) (by decide)⟩

/-- Characterization of the unique-key presence check. -/
theorem priceKeyPresent_iff (rows : List PriceRow) (code : FundCode) (d : Date) :
    priceKeyPresent rows code d = true ↔
      (code, d) ∈ rows.map fun r => (r.fundCode, r.date) := by
  rw [priceKeyPresent, List.any_eq_true]
  constructor
  · rintro ⟨r, hr, hp⟩
    simp only [Bool.and_eq_true, beq_iff_eq] at hp
    exact List.mem_map.mpr ⟨r, hr, by rw [hp.1, hp.2]⟩
  · intro hmem
    obtain ⟨r, hr, hkey⟩ := List.mem_map.mp hmem
    refine ⟨r, hr, ?_⟩
    have h1 : r.fundCode = code := congrArg Prod.fst hkey
    have h2 : r.date = d := congrArg Prod.snd hkey
    simp [h1, h2]

/-- An insert honoring the unique key preserves key uniqueness. -/
theorem insertPrice_keysOk (rows : List PriceRow) (code : FundCode) (p : PricePoint)
    (h : KeysOk rows) : KeysOk (insertPrice rows code p) := by
  rw [insertPrice]
  by_cases hpres : priceKeyPresent rows code p.date
  · rw [if_pos hpres]
    exact h
  · rw [if_neg hpres]
    rw [KeysOk, List.map_append, List.nodup_append]
    refine ⟨h, List.nodup_singleton _, ?_⟩
    intro a ha hb
    simp only [List.map_cons, List.map_nil, List.mem_singleton] at hb
    subst hb
    exact (Bool.not_eq_true _).mpr (Bool.of_not_eq_true hpres)
      ((priceKeyPresent_iff rows code p.date).mpr ha)

/-- A batch insert preserves key uniqueness. -/
theorem batch_insert_keysOk (code : FundCode) :
    ∀ (pts : List PricePoint) (rows : List PriceRow), KeysOk rows →
      KeysOk (batch_insert_prices rows code pts) := by
  intro pts
  induction pts with
  | nil => intro rows h; exact h
  | cons p ps ih => intro rows h; exact ih _ (insertPrice_keysOk rows code p h)

/-- A sync preserves key uniqueness of the prices table. -/
theorem sync_keysOk (provider : Provider) (today : Date) (inst : Instrument)
    (force : Bool) (s : CoreState) (h : KeysOk s.prices) :
    KeysOk (sync_fund_history provider today inst force s).state.prices := by
  by_cases hbr : computeFromDate s.prices inst > today ∧ force = false
  · obtain ⟨h1, h2⟩ := hbr
    subst h2
    rw [sync_noop_eq provider today inst s h1]
    exact h
  · cases hp : provider inst.code (computeFromDate s.prices inst) today with
    | ok pts =>
      rw [sync_fetch_ok provider today inst force s pts hbr hp]
      exact batch_insert_keysOk inst.code pts s.prices h
    | error e =>
      rw [sync_fetch_error provider today inst force s e hbr hp]
      exact h

/-- Any sequence of sync and append operations preserves key uniqueness. -/
theorem applyCalls_keysOk :
    ∀ (cs : List CoreCall) (s : CoreState), KeysOk s.prices →
      KeysOk (applyCalls cs s).prices := by
  intro cs
  induction cs with
  | nil => intro s h; exact h
  | cons c cs ih =>
    intro s h
    refine ih _ ?_
    cases c with
    | syncCall provider today inst force => exact sync_keysOk provider today inst force s h
    | appendCall code pts => exact batch_insert_keysOk code pts s.prices h

/-- Under key uniqueness, a filter whose predicate pins down one key keeps at
most one row. -/
theorem keysOk_filter_length_le_one (code : FundCode) (d : Date) (p : PriceRow → Bool)
    (hp : ∀ r, p r = true → r.fundCode = code ∧ r.date = d) :
    ∀ rows : List PriceRow, KeysOk rows → (rows.filter p).length ≤ 1 := by
  intro rows
  induction rows with
  | nil => intro _; simp
  | cons r rest ih =>
    intro h
    rw [KeysOk, List.map_cons, List.nodup_cons] at h
    obtain ⟨hnot, hrest⟩ := h
    by_cases hpr : p r = true
    · rw [List.filter_cons_of_pos hpr]
      have hnil : rest.filter p = [] := by
        rw [List.filter_eq_nil_iff]
        intro r2 hr2 hp2
        have hk2 := hp r2 hp2
        have hk1 := hp r hpr
        exact hnot (List.mem_map.mpr ⟨r2, hr2, by rw [hk2.1, hk2.2, hk1.1, hk1.2]⟩)
      rw [hnil]
      simp
    · rw [List.filter_cons_of_neg (by simpa using hpr)]
      exact ih hrest

/-- An insert whose unique key is already cached is a no-op. -/
theorem insertPrice_present (rows : List PriceRow) (code : FundCode) (p : PricePoint)
    (h : priceKeyPresent rows code p.date = true) : insertPrice rows code p = rows := by
  rw [insertPrice, if_pos h]

/-- A batch insert of points whose dates are all already cached is a
no-op. -/
theorem batch_insert_cached (code : FundCode) :
    ∀ (pts : List PricePoint) (rows : List PriceRow),
      (∀ p ∈ pts, priceKeyPresent rows code p.date = true) →
      batch_insert_prices rows code pts = rows := by
  intro pts
  induction pts with
  | nil => intro rows _; rfl
  | cons p ps ih =>
    intro rows h
    have h1 := insertPrice_present rows code p (h p (by simp))
    show batch_insert_prices (insertPrice rows code p) code ps = rows
    rw [h1]
    exact ih rows fun q hq => h q (by simp [hq])

/-- A sync whose provider confirms no new data leaves the prices table
unchanged and reports updated = false. -/
theorem sync_no_new_data (provider : Provider) (today : Date) (inst : Instrument)
    (force : Bool) (s : CoreState)
    (hp : provider inst.code (computeFromDate s.prices inst) today = .ok []) :
    (sync_fund_history provider today inst force s).state.prices = s.prices ∧
    (sync_fund_history provider today inst force s).outcome.updated = false := by
  by_cases hbr : computeFromDate s.prices inst > today ∧ force = false
  · obtain ⟨h1, h2⟩ := hbr
    subst h2
    rw [sync_noop_eq provider today inst s h1]
    exact ⟨rfl, rfl⟩
  · rw [sync_fetch_ok provider today inst force s [] hbr hp]
    exact ⟨rfl, rfl⟩

/-- C6: after any sequence of sync and appendPoints operations starting from
a store with unique keys, the prices table keeps at most one row per
(instrument, date) key, so a readRange slice holds at most one point per
date; re-inserting a point for an already-cached date is a no-op, and a sync
whose provider returns no new data leaves the PricePoint set unchanged with
updated = false. -/
theorem claim_C6_unique_points :
    (∀ (cs : List CoreCall) (s : CoreState), KeysOk s.prices →
      KeysOk (applyCalls cs s).prices) ∧
    (∀ (rows : List PriceRow) (code : FundCode) (fromD toD d : Date), KeysOk rows →
      ((readRange rows code fromD toD).filter fun r => r.date == d).length ≤ 1) ∧
    (∀ (rows : List PriceRow) (code : FundCode) (p : PricePoint),
      priceKeyPresent rows code p.date = true → insertPrice rows code p = rows) ∧
    (∀ (rows : List PriceRow) (code : FundCode) (pts : List PricePoint),
      (∀ p ∈ pts, priceKeyPresent rows code p.date = true) →
      batch_insert_prices rows code pts = rows) ∧
    (∀ (provider : Provider) (today : Date) (inst : Instrument) (force : Bool)
      (s : CoreState),
      provider inst.code (computeFromDate s.prices inst) today = .ok [] →
      (sync_fund_history provider today inst force s).state.prices = s.prices ∧
      (sync_fund_history provider today inst force s).outcome.updated = false) := by
  refine ⟨applyCalls_keysOk, ?_, insertPrice_present,
    fun rows code pts h => batch_insert_cached code pts rows h,
    fun provider today inst force s hp => sync_no_new_data provider today inst force s hp⟩
  intro rows code fromD toD d h
  rw [readRange, List.filter_filter]
  refine keysOk_filter_length_le_one code d _ ?_ rows h
  intro r hr
  simp only [Bool.and_eq_true, beq_iff_eq, decide_eq_true_eq] at hr
  exact ⟨by tauto, by tauto⟩

/-- C6 witness: appending twice the same dated point to an empty store keeps
keys unique; the concrete no-op insert, cached batch insert and no-new-data
sync evaluated on a one-row store. -/
theorem claim_C6_witness :
    (KeysOk ([] : List PriceRow) ∧
      KeysOk (applyCalls [CoreCall.appendCall "a" [⟨4, 1⟩, ⟨4, 1⟩]] ⟨[], []⟩).prices) ∧
    (priceKeyPresent [⟨"a", 4, 1⟩] "a" 4 = true ∧
      insertPrice [⟨"a", 4, 1⟩] "a" ⟨4, 1⟩ = [⟨"a", 4, 1⟩]) ∧
    ((fun _ _ _ => .ok []) "a" (computeFromDate [⟨"a", 4, 1⟩] ⟨"a", 2⟩) 9
        = (Except.ok [] : Except FetchError (List PricePoint)) ∧
      (sync_fund_history (fun _ _ _ => .ok []) 9 ⟨"a", 2⟩ false
        ⟨[⟨"a", 4, 1⟩], []⟩).state.prices = [⟨"a", 4, 1⟩] ∧
      (sync_fund_history (fun _ _ _ => .ok []) 9 ⟨"a", 2⟩ false
        ⟨[⟨"a", 4, 1⟩], []⟩).outcome.updated = false) :=
  ⟨⟨by decide, claim_C6_unique_points.1 [CoreCall.appendCall "a" [⟨4, 1⟩, ⟨4, 1⟩]]
      ⟨[], []⟩ (by decide)⟩,
    ⟨by decide, claim_C6_unique_points.2.2.1 [⟨"a", 4, 1⟩] "a" ⟨4, 1⟩ (by decide)⟩,
    ⟨rfl, claim_C6_unique_points.2.2.2.2 (fun _ _ _ => .ok []) 9 ⟨"a", 2⟩ false
      ⟨[⟨"a", 4, 1⟩], []⟩ rfl⟩⟩

/-- Replacing one key in the meta table yields that row on lookup. -/
theorem find_replace_self (code : FundCode) (m : SyncMeta) :
    ∀ ms : List (FundCode × SyncMeta), (ms.any fun kv => kv.1 == code) = true →
      getMeta (ms.map fun kv => if kv.1 == code then (code, m) else kv) code = some m := by
  intro ms
  induction ms with
  | nil => intro h; simp at h
  | cons kv rest ih =>
    intro h
    rw [List.map_cons]
    by_cases hkv : (kv.1 == code) = true
    · rw [if_pos hkv, getMeta, List.find?_cons_of_pos _ (by simp)]
      rfl
    · rw [if_neg hkv, getMeta, List.find?_cons_of_neg _ (by simpa using hkv)]
      have hrest : (rest.any fun kv => kv.1 == code) = true := by
        rw [List.any_cons] at h
        simpa [hkv] using h
      exact ih hrest

/-- Appending a fresh key to the meta table yields that row on lookup. -/
theorem getMeta_append_single (code : FundCode) (m : SyncMeta) :
    ∀ ms : List (FundCode × SyncMeta), (∀ kv ∈ ms, (kv.1 == code) = false) →
      getMeta (ms ++ [(code, m)]) code = some m := by
  intro ms
  induction ms with
  | nil =>
    intro _
    rw [List.nil_append, getMeta, List.find?_cons_of_pos _ (by simp)]
    rfl
  | cons kv rest ih =>
    intro hall
    rw [List.cons_append, getMeta,
      List.find?_cons_of_neg _ (by simpa using hall kv (by simp))]
    exact ih fun kv2 h2 => hall kv2 (by simp [h2])

/-- Writing the meta row of a fund makes exactly that row visible. -/
theorem getMeta_setMeta_self (ms : List (FundCode × SyncMeta)) (code : FundCode)
    (m : SyncMeta) : getMeta (setMeta ms code m) code = some m := by
  rw [setMeta]
  by_cases hany : (ms.any fun kv => kv.1 == code) = true
  · rw [if_pos hany]
    exact find_replace_self code m ms hany
  · rw [if_neg hany]
    refine getMeta_append_single code m ms ?_
    intro kv hkv
    by_contra hc
    exact hany (List.any_eq_true.mpr ⟨kv, hkv, by simpa using hc⟩)

/-- Replacing one key of the meta table does not change lookups of other
keys. -/
theorem getMeta_map_replace (code c : FundCode) (m : SyncMeta) (hne : code ≠ c) :
    ∀ ms : List (FundCode × SyncMeta),
      getMeta (ms.map fun kv => if kv.1 == code then (code, m) else kv) c =
        getMeta ms c := by
  intro ms
  induction ms with
  | nil => rfl
  | cons kv rest ih =>
    rw [List.map_cons]
    by_cases hkv : (kv.1 == code) = true
    · have hk : kv.1 = code := by simpa using hkv
      rw [if_pos hkv, getMeta, getMeta, List.find?_cons_of_neg _ (by simp [hne]),
        List.find?_cons_of_neg _ (by simp [hk, hne])]
      exact ih
    · rw [if_neg hkv, getMeta, getMeta]
      by_cases hc : (kv.1 == c) = true
      · simp only [List.find?_cons, hc]
      · have hcf : (kv.1 == c) = false := by simpa using hc
        simp only [List.find?_cons, hcf]
        exact ih

/-- Appending a row with a different key does not change lookups. -/
theorem getMeta_append_other (code c : FundCode) (m : SyncMeta) (hne : code ≠ c) :
    ∀ ms : List (FundCode × SyncMeta), getMeta (ms ++ [(code, m)]) c = getMeta ms c := by
  intro ms
  induction ms with
  | nil =>
    rw [List.nil_append, getMeta, List.find?_cons_of_neg _ (by simp [hne])]
    rfl
  | cons kv rest ih =>
    rw [List.cons_append, getMeta, getMeta]
    by_cases hc : (kv.1 == c) = true
    · simp only [List.find?_cons, hc]
    · have hcf : (kv.1 == c) = false := by simpa using hc
      simp only [List.find?_cons, hcf]
      exact ih

/-- Writing the meta row of one fund does not change other funds' rows. -/
theorem getMeta_setMeta_other (code c : FundCode) (m : SyncMeta) (hne : code ≠ c)
    (ms : List (FundCode × SyncMeta)) :
    getMeta (setMeta ms code m) c = getMeta ms c := by
  rw [setMeta]
  by_cases hany : (ms.any fun kv => kv.1 == code) = true
  · rw [if_pos hany]
    exact getMeta_map_replace code c m hne ms
  · rw [if_neg hany]
    exact getMeta_append_other code c m hne ms

/-- Inserting a row of one fund does not change the row set of another. -/
theorem filter_insertPrice_other (rows : List PriceRow) (code c : FundCode)
    (p : PricePoint) (hne : code ≠ c) :
    ((insertPrice rows code p).filter fun r => r.fundCode == c) =
      rows.filter fun r => r.fundCode == c := by
  rw [insertPrice]
  by_cases hpres : priceKeyPresent rows code p.date
  · rw [if_pos hpres]
  · rw [if_neg hpres, List.filter_append]
    have hsingle : (([⟨code, p.date, p.netValue⟩] : List PriceRow).filter
        fun r => r.fundCode == c) = [] := by
      simp [hne]
    rw [hsingle, List.append_nil]

/-- A batch insert for one fund does not change the row set of another. -/
theorem filter_batch_insert_other (code c : FundCode) (hne : code ≠ c) :
    ∀ (pts : List PricePoint) (rows : List PriceRow),
      ((batch_insert_prices rows code pts).filter fun r => r.fundCode == c) =
        rows.filter fun r => r.fundCode == c := by
  intro pts
  induction pts with
  | nil => intro rows; rfl
  | cons q qs ih =>
    intro rows
    show ((batch_insert_prices (insertPrice rows code q) code qs).filter
      fun r => r.fundCode == c) = _
    rw [ih (insertPrice rows code q), filter_insertPrice_other rows code c q hne]

/-- A sync of one fund touches neither the cached rows nor the meta row of
any other fund. -/
theorem sync_preserves_other (provider : Provider) (today : Date) (inst : Instrument)
    (force : Bool) (s : CoreState) (c : FundCode) (hne : inst.code ≠ c) :
    ((sync_fund_history provider today inst force s).state.prices.filter
        fun r => r.fundCode == c) = (s.prices.filter fun r => r.fundCode == c) ∧
    getMeta (sync_fund_history provider today inst force s).state.meta c =
      getMeta s.meta c := by
  by_cases hbr : computeFromDate s.prices inst > today ∧ force = false
  · obtain ⟨h1, h2⟩ := hbr
    subst h2
    rw [sync_noop_eq provider today inst s h1]
    exact ⟨rfl, rfl⟩
  · cases hp : provider inst.code (computeFromDate s.prices inst) today with
    | ok pts =>
      rw [sync_fetch_ok provider today inst force s pts hbr hp]
      exact ⟨filter_batch_insert_other inst.code c hne pts s.prices,
        getMeta_setMeta_other inst.code c _ hne s.meta⟩
    | error e =>
      rw [sync_fetch_error provider today inst force s e hbr hp]
      exact ⟨rfl, getMeta_setMeta_other inst.code c _ hne s.meta⟩

/-- The meta row of a fund after its own sync step is the expected update. -/
theorem sync_meta_self (provider : Provider) (today : Date) (inst : Instrument)
    (s : CoreState) :
    getMeta (sync_fund_history provider today inst false s).state.meta inst.code =
      expectedMeta provider today inst s := by
  rw [expectedMeta]
  by_cases hbr : computeFromDate s.prices inst > today
  · rw [if_pos hbr, sync_noop_eq provider today inst s hbr]
  · rw [if_neg hbr]
    cases hp : provider inst.code (computeFromDate s.prices inst) today with
    | ok pts =>
      rw [sync_fetch_ok provider today inst false s pts (fun hc => hbr hc.1) hp]
      exact getMeta_setMeta_self s.meta inst.code _
    | error e =>
      rw [sync_fetch_error provider today inst false s e (fun hc => hbr hc.1) hp]
      exact getMeta_setMeta_self s.meta inst.code _

/-- The expected meta update of a fund depends only on its own rows and meta
row. -/
theorem expectedMeta_congr (provider : Provider) (today : Date) (inst : Instrument)
    (s' s : CoreState)
    (hpr : (s'.prices.filter fun r => r.fundCode == inst.code) =
      (s.prices.filter fun r => r.fundCode == inst.code))
    (hm : getMeta s'.meta inst.code = getMeta s.meta inst.code) :
    expectedMeta provider today inst s' = expectedMeta provider today inst s := by
  have hc : computeFromDate s'.prices inst = computeFromDate s.prices inst := by
    rw [computeFromDate, computeFromDate, get_latest_price_date,
      get_latest_price_date, hpr]
  rw [expectedMeta, expectedMeta, hc, hm]

/-- A batch sync yields one result entry per fund, failures included. -/
theorem batch_sync_length (provider : Provider) (today : Date) :
    ∀ (insts : List Instrument) (s : CoreState),
      (batch_sync_funds provider today insts s).2.length = insts.length := by
  intro insts
  induction insts with
  | nil => intro s; rfl
  | cons i is ih =>
    intro s
    show ((batch_sync_funds provider today is
      (sync_fund_history provider today i false s).state).2.length + 1 = is.length + 1)
    rw [ih]

/-- A batch sync over funds with codes different from c touches neither the
rows nor the meta row of c. -/
theorem batch_preserves_other (provider : Provider) (today : Date) (c : FundCode) :
    ∀ (insts : List Instrument) (s : CoreState), (∀ i ∈ insts, i.code ≠ c) →
      ((batch_sync_funds provider today insts s).1.prices.filter
          fun r => r.fundCode == c) = (s.prices.filter fun r => r.fundCode == c) ∧
      getMeta (batch_sync_funds provider today insts s).1.meta c = getMeta s.meta c := by
  intro insts
  induction insts with
  | nil => intro s _; exact ⟨rfl, rfl⟩
  | cons i is ih =>
    intro s h
    have hstep := sync_preserves_other provider today i false s c (h i (by simp))
    have hrest := ih (sync_fund_history provider today i false s).state
      fun j hj => h j (by simp [hj])
    constructor
    · show ((batch_sync_funds provider today is
        (sync_fund_history provider today i false s).state).1.prices.filter
          fun r => r.fundCode == c) = _
      rw [hrest.1, hstep.1]
    · show getMeta (batch_sync_funds provider today is
        (sync_fund_history provider today i false s).state).1.meta c = _
      rw [hrest.2, hstep.2]

/-- In a batch sync over funds with pairwise distinct codes, the final meta
row of each fund is exactly its own expected update against the initial
store, unaffected by other funds' outcomes. -/
theorem batch_meta_isolated (provider : Provider) (today : Date) :
    ∀ (insts : List Instrument) (s : CoreState), (insts.map (·.code)).Nodup →
      ∀ inst ∈ insts,
        getMeta (batch_sync_funds provider today insts s).1.meta inst.code =
          expectedMeta provider today inst s := by
  intro insts
  induction insts with
  | nil => intro s _ inst h; simp at h
  | cons i is ih =>
    intro s hnodup inst hmem
    rw [List.map_cons, List.nodup_cons] at hnodup
    obtain ⟨hhead, htail⟩ := hnodup
    rcases List.mem_cons.mp hmem with heq | hmem2
    · subst heq
      have hpres := batch_preserves_other provider today inst.code is
        (sync_fund_history provider today inst false s).state
        (fun j hj hc => hhead (List.mem_map.mpr ⟨j, hj, hc⟩))
      show getMeta (batch_sync_funds provider today is
        (sync_fund_history provider today inst false s).state).1.meta inst.code = _
      rw [hpres.2, sync_meta_self provider today inst s]
    · have hne : i.code ≠ inst.code :=
        fun hc => hhead (hc ▸ List.mem_map.mpr ⟨inst, hmem2, rfl⟩)
      have hstep := sync_preserves_other provider today i false s inst.code hne
      have hrec := ih (sync_fund_history provider today i false s).state htail inst hmem2
      show getMeta (batch_sync_funds provider today is
        (sync_fund_history provider today i false s).state).1.meta inst.code = _
      rw [hrec, expectedMeta_congr provider today inst _ s hstep.1 hstep.2]

/-- C5: a batch sync over funds with pairwise distinct codes never aborts on
a per-fund failure: every fund gets a result entry, a fund whose fetch fails
gets its meta row set to status failed with the error recorded, and a fund
whose fetch succeeds gets status synced, each regardless of the other funds'
outcomes. -/
theorem claim_C5_partial_failure (provider : Provider) (today : Date)
    (insts : List Instrument) (s : CoreState)
    (hnodup : (insts.map (·.code)).Nodup) (inst : Instrument) (hmem : inst ∈ insts) :
    (batch_sync_funds provider today insts s).2.length = insts.length ∧
    (∀ e : FetchError, computeFromDate s.prices inst ≤ today →
      provider inst.code (computeFromDate s.prices inst) today = .error e →
      getMeta (batch_sync_funds provider today insts s).1.meta inst.code =
        some (metaOnFailure (getMeta s.meta inst.code) e)) ∧
    (∀ pts : List PricePoint, computeFromDate s.prices inst ≤ today →
      provider inst.code (computeFromDate s.prices inst) today = .ok pts →
      getMeta (batch_sync_funds provider today insts s).1.meta inst.code =
        some (metaOnSuccess pts today)) := by
  refine ⟨batch_sync_length provider today insts s, ?_, ?_⟩
  · intro e hle hp
    rw [batch_meta_isolated provider today insts s hnodup inst hmem, expectedMeta,
      if_neg (Nat.not_lt.mpr hle), hp]
  · intro pts hle hp
    rw [batch_meta_isolated provider today insts s hnodup inst hmem, expectedMeta,
      if_neg (Nat.not_lt.mpr hle), hp]

/-- C5 witness: three funds where the second's fetch fails with NotFound: a
batch sync still produces three result entries, marks funds 1 and 3 synced
through day 5 and marks fund 2 failed with the error recorded. -/
theorem claim_C5_witness :
    (([⟨"1", 0⟩, ⟨"2", 0⟩, ⟨"3", 0⟩] : List Instrument).map (·.code)).Nodup ∧
    (batch_sync_funds
        (fun code _ toD => if code == "2" then .error .notFound else .ok [⟨toD, 1⟩]) 5
        [⟨"1", 0⟩, ⟨"2", 0⟩, ⟨"3", 0⟩] ⟨[], []⟩).2.length = 3 ∧
    getMeta (batch_sync_funds
        (fun code _ toD => if code == "2" then .error .notFound else .ok [⟨toD, 1⟩]) 5
        [⟨"1", 0⟩, ⟨"2", 0⟩, ⟨"3", 0⟩] ⟨[], []⟩).1.meta "1" =
      some ⟨some 5, .synced, none⟩ ∧
    getMeta (batch_sync_funds
        (fun code _ toD => if code == "2" then .error .notFound else .ok [⟨toD, 1⟩]) 5
        [⟨"1", 0⟩, ⟨"2", 0⟩, ⟨"3", 0⟩] ⟨[], []⟩).1.meta "2" =
      some ⟨none, .failed, some .notFound⟩ ∧
    getMeta (batch_sync_funds
        (fun code _ toD => if code == "2" then .error .notFound else .ok [⟨toD, 1⟩]) 5
        [⟨"1", 0⟩, ⟨"2", 0⟩, ⟨"3", 0⟩] ⟨[], []⟩).1.meta "3" =
      some ⟨some 5, .synced, none⟩ :=
  ⟨by decide,
    (claim_C5_partial_failure
      (fun code _ toD => if code == "2" then .error .notFound else .ok [⟨toD, 1⟩]) 5
      [⟨"1", 0⟩, ⟨"2", 0⟩, ⟨"3", 0⟩] ⟨[], []⟩ (by decide) ⟨"1", 0⟩ (by decide)).1,
    ((claim_C5_partial_failure
      (fun code _ toD => if code == "2" then .error .notFound else .ok [⟨toD, 1⟩]) 5
      [⟨"1", 0⟩, ⟨"2", 0⟩, ⟨"3", 0⟩] ⟨[], []⟩ (by decide) ⟨"1", 0⟩ (by decide)).2.2
        [⟨5, 1⟩] (by decide) rfl).trans (by decide),
    ((claim_C5_partial_failure
      (fun code _ toD => if code == "2" then .error .notFound else .ok [⟨toD, 1⟩]) 5
      [⟨"1", 0⟩, ⟨"2", 0⟩, ⟨"3", 0⟩] ⟨[], []⟩ (by decide) ⟨"2", 0⟩ (by decide)).2.1
        .notFound (by decide) rfl).trans (by decide),
    ((claim_C5_partial_failure
      (fun code _ toD => if code == "2" then .error .notFound else .ok [⟨toD, 1⟩]) 5
      [⟨"1", 0⟩, ⟨"2", 0⟩, ⟨"3", 0⟩] ⟨[], []⟩ (by decide) ⟨"3", 0⟩ (by decide)).2.2
        [⟨5, 1⟩] (by decide) rfl).trans (by decide)⟩

/-- C4 witness: the amended retry characterization evaluated on a response
failing twice with Timeout and then succeeding, with the default budget of 3
and backoff base 2. -/
theorem claim_C4_witness :
    ((fetch_with_retry (fun k => if k < 2 then (.error .timeout : Except FetchError Nat)
        else .ok 7) 3 2).limiterSlots =
      (fetch_with_retry (fun k => if k < 2 then (.error .timeout : Except FetchError Nat)
        else .ok 7) 3 2).attempts) ∧
    (fetch_with_retry (fun k => if k < 2 then (.error .timeout : Except FetchError Nat)
        else .ok 7) 3 2).attempts ≤ 3 ∧
    (fetch_with_retry (fun k => if k < 2 then (.error .timeout : Except FetchError Nat)
        else .ok 7) 3 2).waits =
      (List.range ((fetch_with_retry (fun k => if k < 2 then
          (.error .timeout : Except FetchError Nat) else .ok 7) 3 2).attempts - 1)).map
        ((2 : Nat) ^ ·) := by
  obtain ⟨h1, h2, h3, _, _⟩ := claim_C4_retry_behavior
    (fun k => if k < 2 then (.error .timeout : Except FetchError Nat) else .ok 7) 3 2
  exact ⟨h1, h2, h3⟩

end Funds

namespace Funds

/-- C10: in the frontend fund store, each of addTrade, updateTrade and
deleteTrade issues the holdings recalculation for the affected fund after the
trade mutation and before any view-state refresh, whether or not the mutated
fund is the currently selected one; the page-script saveEditTrade and
deleteTrade flows do the same. -/
theorem claim_C10_recalc_before_refresh :
    ∀ isCurrent : Bool,
      traceOk (store_addTrade isCurrent) = true ∧
      traceOk (store_updateTrade isCurrent) = true ∧
      traceOk (store_deleteTrade isCurrent) = true ∧
      traceOk page_saveEditTrade = true ∧
      traceOk page_deleteTrade = true := by
  intro isCurrent
  cases isCurrent <;> exact ⟨by decide, by decide, by decide, by decide, by decide⟩

end Funds

namespace Funds

/-- C7 counterexample: the SyncMeta update rule itself can lower the
last-synced date.  A fund cached through day 8: a sync on day 12 whose fetch
succeeds with no rows records last-synced date 12 (toDate, provider confirms
no new data); a later sync on day 14 whose fetch returns one late-published
point dated 11 records last-synced date 11 < 12, so the date is not
monotonically non-decreasing across sync calls. -/
theorem claim_C7_monotonic_cex :
    lastSyncOf (applyCalls
      [CoreCall.syncCall (fun _ _ _ => .ok []) 12 ⟨"f", 0⟩ false]
      ⟨[⟨"f", 8, 1⟩], []⟩) "f" = some 12 ∧
    lastSyncOf (applyCalls
      [CoreCall.syncCall (fun _ _ _ => .ok []) 12 ⟨"f", 0⟩ false,
        CoreCall.syncCall (fun _ _ _ => .ok [⟨11, 1⟩]) 14 ⟨"f", 0⟩ false]
      ⟨[⟨"f", 8, 1⟩], []⟩) "f" = some 11 ∧
    ¬ (12 ≤ 11) :=
  ⟨rfl, rfl, by decide⟩

/-- One forward-publication sync or append step never lowers the recorded
last-synced date of a fund. -/
theorem lastSync_step_mono (code : FundCode) (c : CoreCall) (s : CoreState)
    (hfwd : ForwardStep code s c) :
    ∀ d, lastSyncOf s code = some d →
      ∃ e, d ≤ e ∧ lastSyncOf (applyCall c s) code = some e := by
  intro d hd
  cases c with
  | appendCall co pts => exact ⟨d, Nat.le_refl d, hd⟩
  | syncCall provider today inst force =>
    by_cases hcode : inst.code = code
    · subst hcode
      obtain ⟨htoday, hresp⟩ := hfwd rfl
      rw [hd] at htoday hresp
      by_cases hbr : computeFromDate s.prices inst > today ∧ force = false
      · obtain ⟨h1, h2⟩ := hbr
        subst h2
        refine ⟨d, Nat.le_refl d, ?_⟩
        show lastSyncOf (sync_fund_history provider today inst false s).state inst.code
          = some d
        rw [sync_noop_eq provider today inst s h1]
        exact hd
      · cases hp : provider inst.code (computeFromDate s.prices inst) today with
        | ok pts =>
          rw [hp] at hresp
          refine ⟨((pts.map (·.date)).max?).getD today, ?_, ?_⟩
          · rcases hresp with hnil | hle
            · subst hnil
              simpa using htoday
            · simpa using hle
          · show lastSyncOf (sync_fund_history provider today inst force s).state
              inst.code = _
            rw [sync_fetch_ok provider today inst force s pts hbr hp]
            show (getMeta (setMeta s.meta inst.code (metaOnSuccess pts today))
              inst.code).bind (·.lastSyncDate) = _
            rw [getMeta_setMeta_self]
            rfl
        | error e =>
          refine ⟨d, Nat.le_refl d, ?_⟩
          show lastSyncOf (sync_fund_history provider today inst force s).state
            inst.code = some d
          rw [sync_fetch_error provider today inst force s e hbr hp]
          show (getMeta (setMeta s.meta inst.code
            (metaOnFailure (getMeta s.meta inst.code) e)) inst.code).bind
              (·.lastSyncDate) = some d
          rw [getMeta_setMeta_self]
          exact hd
    · refine ⟨d, Nat.le_refl d, ?_⟩
      show lastSyncOf (sync_fund_history provider today inst force s).state code = some d
      show (getMeta (sync_fund_history provider today inst force s).state.meta code).bind
        (·.lastSyncDate) = some d
      rw [(sync_preserves_other provider today inst force s code hcode).2]
      exact hd

/-- Splitting off the step at index j of an operation sequence. -/
theorem applyCalls_take_succ (cs : List CoreCall) (s : CoreState) (j : Nat)
    (h : j < cs.length) :
    applyCalls (cs.take (j + 1)) s =
      applyCall (cs.get ⟨j, h⟩) (applyCalls (cs.take j) s) := by
  rw [List.take_succ, List.getElem?_eq_getElem h]
  show (cs.take j ++ [cs[j]]).foldl (fun st c => applyCall c st) s = _
  rw [List.foldl_append]
  rfl

/-- Along a forward-publication prefix of operations, the recorded
last-synced date never decreases between any two prefixes. -/
theorem lastSync_prefix_mono (code : FundCode) (cs : List CoreCall) (s : CoreState)
    (hfwd : ∀ i (h : i < cs.length),
      ForwardStep code (applyCalls (cs.take i) s) (cs.get ⟨i, h⟩)) :
    ∀ j, j ≤ cs.length → ∀ i, i ≤ j → ∀ d,
      lastSyncOf (applyCalls (cs.take i) s) code = some d →
      ∃ e, d ≤ e ∧ lastSyncOf (applyCalls (cs.take j) s) code = some e := by
  intro j
  induction j with
  | zero =>
    intro _ i hi d hd
    have hz : i = 0 := Nat.le_zero.mp hi
    subst hz
    exact ⟨d, Nat.le_refl d, hd⟩
  | succ j ih =>
    intro hj i hi d hd
    by_cases hij : i = j + 1
    · subst hij
      exact ⟨d, Nat.le_refl d, hd⟩
    · have hij2 : i ≤ j := by omega
      have hjlen : j < cs.length := by omega
      obtain ⟨e1, he1, hd1⟩ := ih (by omega) i hij2 d hd
      obtain ⟨e2, he2, hd2⟩ := lastSync_step_mono code (cs.get ⟨j, hjlen⟩)
        (applyCalls (cs.take j) s) (hfwd j hjlen) e1 hd1
      refine ⟨e2, Nat.le_trans he1 he2, ?_⟩
      rw [applyCalls_take_succ cs s j hjlen]
      exact hd2

/-- C7 amended: the recorded last-synced date of a fund is monotonically
non-decreasing across any sequence of sync and append operations, failed
syncs included, provided every sync step satisfies the forward-publication
condition (current date and maximal returned date no earlier than the
recorded last-synced date); without that proviso a late back-published older
point lowers it.  Raw appends never touch SyncMeta, and every sync that
issues a fetch leaves a SyncMeta row for the fund, on success and on
failure. -/
theorem claim_C7_monotonic_lastSync (code : FundCode) (cs : List CoreCall)
    (s : CoreState)
    (hfwd : ∀ i (h : i < cs.length),
      ForwardStep code (applyCalls (cs.take i) s) (cs.get ⟨i, h⟩)) :
    (∀ i j, i ≤ j → j ≤ cs.length → ∀ d,
      lastSyncOf (applyCalls (cs.take i) s) code = some d →
      ∃ e, d ≤ e ∧ lastSyncOf (applyCalls (cs.take j) s) code = some e) ∧
    (∀ (co : FundCode) (pts : List PricePoint) (t : CoreState),
      (applyCall (.appendCall co pts) t).meta = t.meta) ∧
    (∀ (provider : Provider) (today : Date) (inst : Instrument) (force : Bool)
      (t : CoreState),
      (sync_fund_history provider today inst force t).fetchCalls ≠ [] →
      (getMeta (sync_fund_history provider today inst force t).state.meta
        inst.code).isSome = true) := by
  refine ⟨?_, fun co pts t => rfl, ?_⟩
  · intro i j hij hj d hd
    exact lastSync_prefix_mono code cs s hfwd j hj i hij d hd
  · intro provider today inst force t hcalls
    by_cases hbr : computeFromDate t.prices inst > today ∧ force = false
    · obtain ⟨h1, h2⟩ := hbr
      subst h2
      rw [sync_noop_eq provider today inst t h1] at hcalls
      exact absurd rfl hcalls
    · cases hp : provider inst.code (computeFromDate t.prices inst) today with
      | ok pts =>
        rw [sync_fetch_ok provider today inst force t pts hbr hp]
        show (getMeta (setMeta t.meta inst.code (metaOnSuccess pts today))
          inst.code).isSome = true
        rw [getMeta_setMeta_self]
        rfl
      | error e =>
        rw [sync_fetch_error provider today inst force t e hbr hp]
        show (getMeta (setMeta t.meta inst.code
          (metaOnFailure (getMeta t.meta inst.code) e)) inst.code).isSome = true
        rw [getMeta_setMeta_self]
        rfl

/-- C7 witness: one forward-publication sync on day 10 returning a point
dated 10, on a store whose recorded last-synced date is 9: the recorded date
does not decrease. -/
theorem claim_C7_witness :
    lastSyncOf (applyCalls (List.take 0
      [CoreCall.syncCall (fun _ _ _ => .ok [⟨10, 1⟩]) 10 ⟨"f", 0⟩ false])
      ⟨[], [("f", ⟨some 9, .synced, none⟩)]⟩) "f" = some 9 ∧
    ∃ e, 9 ≤ e ∧ lastSyncOf (applyCalls (List.take 1
      [CoreCall.syncCall (fun _ _ _ => .ok [⟨10, 1⟩]) 10 ⟨"f", 0⟩ false])
      ⟨[], [("f", ⟨some 9, .synced, none⟩)]⟩) "f" = some e :=
  ⟨rfl,
    (claim_C7_monotonic_lastSync "f"
      [CoreCall.syncCall (fun _ _ _ => .ok [⟨10, 1⟩]) 10 ⟨"f", 0⟩ false]
      ⟨[], [("f", ⟨some 9, .synced, none⟩)]⟩
      (fun i h => by
        have hz : i = 0 := Nat.lt_one_iff.mp h
        subst hz
        intro _
        exact ⟨by decide, Or.inr (by decide)⟩)).1
      0 1 (by decide) (by decide) 9 rfl⟩

end Funds

namespace Funds

/-- Calendar day is monotone in absolute time. -/
theorem dayOf_mono {t t2 : Nat} (h : t ≤ t2) : dayOf t ≤ dayOf t2 := by
  rw [dayOf, dayOf]
  omega

/-- Within one calendar day, the minute of the day is monotone. -/
theorem minuteOfDay_mono_same_day {t t2 : Nat} (ht : t ≤ t2)
    (hd : dayOf t = dayOf t2) : minuteOfDay t ≤ minuteOfDay t2 := by
  rw [dayOf, dayOf] at hd
  rw [minuteOfDay, minuteOfDay]
  omega

/-- Unfolding equation of one poll of the scheduler run. -/
theorem schedRun_succ (consumed : List Nat) (t n : Nat) :
    schedRun consumed t (n + 1) =
      ⟨t, (schedStep consumed t).1⟩ :: schedRun (schedStep consumed t).2 (t + 30) n := rfl

/-- Fire count over a poll list, split at the head. -/
theorem countFires_cons (tk : SchedTick) (rest : List SchedTick) (d c : Nat) :
    countFires (tk :: rest) d c =
      (if (dayOf tk.time == d && tk.fired.contains c) = true then 1 else 0) +
        countFires rest d c := by
  rw [countFires, countFires, List.filter_cons]
  by_cases h : (dayOf tk.time == d && tk.fired.contains c) = true
  · rw [if_pos h, if_pos h, List.length_cons, Nat.add_comm]
  · rw [if_neg h, if_neg h, Nat.zero_add]

/-- A checkpoint fires only when the clock matches it and it is not yet
consumed. -/
theorem schedStep_fired_mem {consumed : List Nat} {t c : Nat}
    (h : c ∈ (schedStep consumed t).1) :
    c ∈ SYNC_TIMES ∧ minuteOfDay t = c ∧ c ∉ consumed := by
  have h2 : c ∈ SYNC_TIMES.filter
      (fun x => x == minuteOfDay t && !(consumed.contains x)) := h
  obtain ⟨hmem, hp⟩ := List.mem_filter.mp h2
  simp only [Bool.and_eq_true, beq_iff_eq, Bool.not_eq_true'] at hp
  refine ⟨hmem, hp.1.symm, fun hcmem => ?_⟩
  have hcont : List.elem c consumed = true := List.elem_eq_true_of_mem hcmem
  have hfalse : List.elem c consumed = false := hp.2
  rw [hcont] at hfalse
  exact Bool.noConfusion hfalse

/-- Away from midnight, a poll only adds to the consumed set. -/
theorem schedStep_consumed_sub {consumed : List Nat} {t : Nat}
    (hmin : 0 < minuteOfDay t) :
    (schedStep consumed t).2 = consumed ++ (schedStep consumed t).1 := by
  have hne : (minuteOfDay t == 0) = false := by
    simp only [beq_eq_false_iff_ne, ne_eq]
    omega
  rw [schedStep]
  simp [hne]

/-- Away from midnight, a checkpoint that fires is marked consumed. -/
theorem schedStep_fired_consumed {consumed : List Nat} {t c : Nat}
    (h : c ∈ (schedStep consumed t).1) (hmin : 0 < minuteOfDay t) :
    c ∈ (schedStep consumed t).2 := by
  rw [schedStep_consumed_sub hmin]
  exact List.mem_append_right consumed h

/-- A run starting after day d never fires anything counted for day d. -/
theorem schedRun_day_passed (c d : Nat) :
    ∀ (n t : Nat) (consumed : List Nat), d < dayOf t →
      countFires (schedRun consumed t n) d c = 0 := by
  intro n
  induction n with
  | zero => intro t consumed _; rfl
  | succ n ih =>
    intro t consumed hd
    rw [schedRun_succ, countFires_cons]
    have hne : (dayOf t == d) = false := by
      simp only [beq_eq_false_iff_ne, ne_eq]
      omega
    rw [hne]
    simp only [Bool.false_and, if_neg (Bool.false_ne_true), Nat.zero_add]
    refine ih (t + 30) _ ?_
    exact Nat.lt_of_lt_of_le hd (dayOf_mono (by omega))

/-- Once a checkpoint is consumed, it cannot fire again for the rest of the
same calendar day. -/
theorem schedRun_no_refire (c d : Nat) (_hc : 0 < c) :
    ∀ (n t : Nat) (consumed : List Nat), c ∈ consumed → dayOf t = d →
      0 < minuteOfDay t → countFires (schedRun consumed t n) d c = 0 := by
  intro n
  induction n with
  | zero => intro t consumed _ _ _; rfl
  | succ n ih =>
    intro t consumed hmem hday hmin
    rw [schedRun_succ, countFires_cons]
    have hfired : ((schedStep consumed t).1.contains c) = false := by
      by_contra hcon
      have htrue : List.elem c (schedStep consumed t).1 = true := by
        cases he : List.elem c (schedStep consumed t).1 with
        | true => rfl
        | false => exact absurd he hcon
      exact (schedStep_fired_mem (List.elem_iff.mp htrue)).2.2 hmem
    rw [hfired]
    simp only [Bool.and_false, if_neg (Bool.false_ne_true), Nat.zero_add]
    by_cases hnext : dayOf (t + 30) = d
    · refine ih (t + 30) _ ?_ hnext ?_
      · rw [schedStep_consumed_sub hmin]
        exact List.mem_append_left _ hmem
      · refine Nat.lt_of_lt_of_le hmin (minuteOfDay_mono_same_day (by omega) ?_)
        rw [hday, hnext]
    · have hlt : d < dayOf (t + 30) := by
        have hle : d ≤ dayOf (t + 30) := hday ▸ dayOf_mono (by omega)
        exact Nat.lt_of_le_of_ne hle fun he => hnext he.symm
      exact schedRun_day_passed c d n (t + 30) _ hlt

/-- Each checkpoint fires at most once per calendar day in any run. -/
theorem schedRun_at_most_once (c d : Nat) (hc : 0 < c) :
    ∀ (n t : Nat) (consumed : List Nat),
      countFires (schedRun consumed t n) d c ≤ 1 := by
  intro n
  induction n with
  | zero => intro t consumed; exact Nat.zero_le 1
  | succ n ih =>
    intro t consumed
    rw [schedRun_succ, countFires_cons]
    by_cases hcond : (dayOf t == d && (schedStep consumed t).1.contains c) = true
    · rw [if_pos hcond]
      obtain ⟨hdeq, hfc⟩ := Bool.and_eq_true_iff.mp hcond
      have hday : dayOf t = d := by simpa using hdeq
      have hf : c ∈ (schedStep consumed t).1 := List.elem_iff.mp hfc
      obtain ⟨_, hminc, _⟩ := schedStep_fired_mem hf
      have hmin : 0 < minuteOfDay t := by omega
      have hcons : c ∈ (schedStep consumed t).2 := schedStep_fired_consumed hf hmin
      have htail : countFires (schedRun (schedStep consumed t).2 (t + 30) n) d c = 0 := by
        by_cases hnext : dayOf (t + 30) = d
        · refine schedRun_no_refire c d hc n (t + 30) _ hcons hnext ?_
          refine Nat.lt_of_lt_of_le hmin (minuteOfDay_mono_same_day (by omega) ?_)
          rw [hday, hnext]
        · have hlt : d < dayOf (t + 30) := by
            have hle : d ≤ dayOf (t + 30) := hday ▸ dayOf_mono (by omega)
            exact Nat.lt_of_le_of_ne hle fun he => hnext he.symm
          exact schedRun_day_passed c d n (t + 30) _ hlt
      rw [htail]
    · rw [if_neg hcond]
      rw [Nat.zero_add]
      exact ih (t + 30) _

/-- A poll in the midnight minute clears the consumed set. -/
theorem schedStep_midnight (consumed : List Nat) (t : Nat)
    (h : minuteOfDay t = 0) : (schedStep consumed t).2 = [] := by
  rw [schedStep]
  simp [h]

/-- C8: in any scheduler run polled every 30 seconds, each configured
checkpoint fires its batch sync at most once per calendar day; away from
midnight a fired checkpoint is immediately marked consumed, and any poll in
the local-midnight minute clears the consumed set, making every checkpoint
eligible again for the new day. -/
theorem claim_C8_checkpoint_once (t0 n : Nat) (consumed0 : List Nat) (d c : Nat)
    (hc : c ∈ SYNC_TIMES) :
    countFires (schedRun consumed0 t0 n) d c ≤ 1 ∧
    (∀ (consumed : List Nat) (t : Nat), 0 < minuteOfDay t →
      ∀ x ∈ (schedStep consumed t).1, x ∈ (schedStep consumed t).2) ∧
    (∀ (consumed : List Nat) (t : Nat), minuteOfDay t = 0 →
      (schedStep consumed t).2 = []) := by
  have hpos : 0 < c := by
    have : c = 890 ∨ c = 930 := by simpa [SYNC_TIMES] using hc
    omega
  exact ⟨schedRun_at_most_once c d hpos n t0 consumed0,
    fun consumed t hmin x hx => schedStep_fired_consumed hx hmin,
    fun consumed t h => schedStep_midnight consumed t h⟩

/-- C8 witness: three polls starting at 14:50:00 of day 0 fire checkpoint
890 exactly once (at most once by the claim); a poll at the following
midnight clears the consumed set. -/
theorem claim_C8_witness :
    890 ∈ SYNC_TIMES ∧
    countFires (schedRun [] 53400 3) 0 890 = 1 ∧
    countFires (schedRun [] 53400 3) 0 890 ≤ 1 ∧
    (schedStep [890, 930] 86400).2 = [] :=
  ⟨by decide, by decide,
    (claim_C8_checkpoint_once 53400 3 [] 0 890 (by decide)).1,
    (claim_C8_checkpoint_once 53400 3 [] 0 890 (by decide)).2.2 [890, 930] 86400
      (by decide)⟩

end Funds
